import Mathlib

/-!
Shallow embedding of `src/rsa_algorithm.c` and `src/diffie-hellman.c`.

C machine integers are modelled as `Nat`/`Int`; C loops are modelled as
structurally recursive functions on an explicit iteration counter that is
initialised large enough to cover every iteration the C loop performs
(the counter-exhausted branch returns the current state, which coincides
with the loop's own exit behaviour whenever the counter is sufficient, as
proved in the lemmas below).  The `%` on possibly-negative `int` values is
`Int.tmod`, C's truncated remainder.  GMP (`mpz_*`) is the external
big-integer substrate: its operations are modelled by their documented
mathematical semantics (`mpz_powm b e m` is `b ^ e % m`, `mpz_nextprime x`
is the least prime above `x`, `mpz_probab_prime_p` is an exact primality
test at the idealised confidence, `mpz_sizeinbase 10` is the decimal digit
count).
-/

/-- `gcdExtended` from `src/rsa_algorithm.c` (lines 9-26): extended Euclid,
returning `(gcd, x, y)`; the C out-parameters `*x, *y` become the second
and third components.  Arguments stay nonnegative in every recursive call
made by the repository, so they are modelled as `ℕ`; the coefficients `x, y`
can be negative and are `ℤ`. -/
def gcdExtended (a b : ℕ) : ℕ × ℤ × ℤ :=
  if h : a = 0 then (b, 0, 1)
  else
    let r := gcdExtended (b % a) a
    (r.1, r.2.2 - ((b / a : ℕ) : ℤ) * r.2.1, r.2.1)
termination_by a
decreasing_by exact Nat.mod_lt _ (Nat.pos_of_ne_zero h)

/-- `findGCD` from `src/rsa_algorithm.c` (lines 28-32). -/
def findGCD (a b : ℕ) : ℕ := (gcdExtended a b).1

/-- The scan loop of `modInverse` from `src/rsa_algorithm.c` (lines 34-41):
`for(d = 2; d < totient; d++) if((e*d) % totient == 1) return d; return -1`.
The loop variable `d` counts up; the structural counter `k` is the number of
remaining iterations, initialised to `totient - 2` so that `d` ranges over
`[2, totient)` exactly as in C. -/
def modInvLoop (e t : ℕ) : ℕ → ℕ → ℤ
  | _, 0 => -1
  | d, k + 1 => if (e * d) % t = 1 then (d : ℤ) else modInvLoop e t (d + 1) k

/-- `modInverse` from `src/rsa_algorithm.c` (lines 34-41). -/
def modInverse (e totient : ℕ) : ℤ := modInvLoop e totient 2 (totient - 2)

/-- The square-and-multiply loop of `power` from `src/rsa_algorithm.c`
(lines 44-56).  `res` and `b` are the C `long long` accumulators, `e` the
remaining exponent; the structural counter (first `ℕ` argument) dominates
the number of halvings (`power` passes the full exponent, and
`bits(e) ≤ e`).  `(expo & 1)` is `e % 2 = 1`, and C `%` on `long long` is
`Int.tmod`. -/
def powLoop (m : ℤ) : ℕ → ℤ → ℤ → ℕ → ℤ
  | 0, res, _, _ => res
  | fuel + 1, res, b, e =>
    if e = 0 then res
    else powLoop m fuel (if e % 2 = 1 then (res * b).tmod m else res) ((b * b).tmod m) (e / 2)

/-- `power` from `src/rsa_algorithm.c` (lines 44-56): `base^expo mod m` by
square and multiply.  For `expo ≤ 0` the C `while (expo > 0)` loop body
never runs and `res = 1` is returned, which `Int.toNat` reproduces. -/
def power (base expo m : ℤ) : ℤ :=
  powLoop m expo.toNat 1 (base.tmod m) expo.toNat

/-- `encrypt` from `src/rsa_algorithm.c` (lines 59-61). -/
def encrypt (m e n : ℤ) : ℤ := power m e n

/-- `decrypt` from `src/rsa_algorithm.c` (lines 64-66). -/
def decrypt (c d n : ℤ) : ℤ := power c d n

/-- The square-and-multiply loop of `power`, instrumented with the signed
64-bit overflow check: the products `res * b` (taken when the low exponent
bit is set, as in the C source) and `b * b` must lie in
`[-2^63, 2^63)`, the value range of `long long`; otherwise `none`. -/
def powLoopChk (m : ℤ) : ℕ → ℤ → ℤ → ℕ → Option ℤ
  | 0, res, _, _ => some res
  | fuel + 1, res, b, e =>
    if e = 0 then some res
    else if e % 2 = 1 then
      if -(2 ^ 63) ≤ res * b ∧ res * b < 2 ^ 63 ∧ -(2 ^ 63) ≤ b * b ∧ b * b < 2 ^ 63 then
        powLoopChk m fuel ((res * b).tmod m) ((b * b).tmod m) (e / 2)
      else none
    else
      if -(2 ^ 63) ≤ b * b ∧ b * b < 2 ^ 63 then
        powLoopChk m fuel res ((b * b).tmod m) (e / 2)
      else none

/-- `power` with the 64-bit overflow instrumentation of `powLoopChk`. -/
def powerChk (base expo m : ℤ) : Option ℤ :=
  powLoopChk m expo.toNat 1 (base.tmod m) expo.toNat

/-- The `while (mpz_divisible_ui_p(n, i)) mpz_divexact_ui(n, n, i)` loops of
`factor_distinct` in `src/diffie-hellman.c` (lines 12-26): divide `p` out of
`n` completely.  The structural counter dominates the multiplicity of `p`
in `n` (callers pass `n` itself, and `p ^ k ∣ n → k < n` for `p ≥ 2`). -/
def stripFactor (p : ℕ) : ℕ → ℕ → ℕ
  | n, 0 => n
  | n, fuel + 1 => if p ∣ n then stripFactor p (n / p) fuel else n

/-- The odd-trial-division loop of `factor_distinct` in
`src/diffie-hellman.c` (lines 17-26): for `i = 3, 5, 7, ...` while `n > 1`,
record `i` and divide it out if it divides, and stop as soon as
`i * i > n` (checked after the division step, as in the C source).
The structural counter dominates the number of iterations (`factor_distinct`
passes the original `n`, and the loop exits once `i * i > n`). -/
def oddTrial : ℕ → ℕ → ℕ → List ℕ → List ℕ × ℕ
  | 0, _, n, acc => (acc, n)
  | fuel + 1, i, n, acc =>
    if n ≤ 1 then (acc, n)
    else if i ∣ n then
      if stripFactor i n n < i * i then (acc ++ [i], stripFactor i n n)
      else oddTrial fuel (i + 2) (stripFactor i n n) (acc ++ [i])
    else if n < i * i then (acc, n)
    else oddTrial fuel (i + 2) n acc

/-- The final step of `factor_distinct` in `src/diffie-hellman.c`
(lines 27-29): if a cofactor `> 1` survives trial division it is itself a
prime factor and is appended. -/
def appendLeftover (res : List ℕ × ℕ) : List ℕ :=
  if 1 < res.2 then res.1 ++ [res.2] else res.1

/-- `factor_distinct` from `src/diffie-hellman.c` (lines 6-31): factor out
2, run odd trial division from `i = 3`, and append the surviving cofactor. -/
def factor_distinct (n : ℕ) : List ℕ :=
  if 2 ∣ n then appendLeftover (oddTrial n 3 (stripFactor 2 n n) [2])
  else appendLeftover (oddTrial n 3 n [])

/-- `is_generator` from `src/diffie-hellman.c` (lines 34-49): `g` passes
iff `g ^ ((p-1)/q) mod p ≠ 1` for every listed factor `q`; `mpz_powm` is
the GMP substrate, modelled as exact modular exponentiation. -/
def is_generator (g p : ℕ) (factors : List ℕ) : Bool :=
  factors.all fun q => g ^ ((p - 1) / q) % p != 1

/-- The generator search loop of `src/diffie-hellman.c` (lines 70-73):
`for (cand = start;; ++cand) if (is_generator(cand, P, factors, k)) break;`.
The loop is unbounded in C; the structural counter makes the model total,
with `none` meaning the counter was exhausted before a hit. -/
def findGenLoop (p : ℕ) (factors : List ℕ) : ℕ → ℕ → Option ℕ
  | _, 0 => none
  | cand, fuel + 1 =>
    if is_generator cand p factors then some cand
    else findGenLoop p factors (cand + 1) fuel

/-- `is_generator_safe_prime` from `src/diffie-hellman.c` (lines 192-211):
the safe-prime specialisation checking only the factors `2` and `r`. -/
def is_generator_safe_prime (g P r : ℕ) : Bool :=
  (g ^ ((P - 1) / 2) % P != 1) && (g ^ ((P - 1) / r) % P != 1)

/-- The safe-prime generator search loop of `src/diffie-hellman.c`
(lines 250-253). -/
def findGenSafeLoop (P r : ℕ) : ℕ → ℕ → Option ℕ
  | _, 0 => none
  | cand, fuel + 1 =>
    if is_generator_safe_prime cand P r then some cand
    else findGenSafeLoop P r (cand + 1) fuel

/-- Model of GMP `mpz_powm` (the external big-integer substrate). -/
def powm (b e m : ℕ) : ℕ := b ^ e % m

/-- Model of GMP `mpz_probab_prime_p` at the idealised confidence: an exact,
executable primality test by trial division over `[2, n)`. -/
def primeTest (n : ℕ) : Bool :=
  decide (2 ≤ n) && (List.range (n - 2)).all fun i => decide (¬(i + 2) ∣ n)

/-- Model of GMP `mpz_nextprime`: the least prime above `x`, found inside
the window `(x, 2x+4)` guaranteed nonempty by Bertrand's postulate. -/
def leastPrimeAbove (x : ℕ) : ℕ :=
  match (List.range (2 * x + 4)).filter (fun p => decide (x < p) && primeTest p) with
  | [] => 0
  | p :: _ => p

/-- Decimal digit count, model of GMP `mpz_sizeinbase(·, 10)` per the
substrate contract (decimal-digit-length query); the structural counter
dominates the digit count. -/
def numDigitsAux : ℕ → ℕ → ℕ
  | _, 0 => 0
  | n, fuel + 1 => if n = 0 then 0 else numDigitsAux (n / 10) fuel + 1

/-- Decimal digit count of `n`. -/
def numDigits (n : ℕ) : ℕ := numDigitsAux n n

/-- `gen_safe_prime` from `src/diffie-hellman.c` (lines 160-189).  The
random sampling (`mpz_urandomb` + `mpz_setbit`) is modelled by an arbitrary
input stream `samples` of candidate values, one per rejection-sampling
iteration: each is advanced to the next prime `r` (`mpz_nextprime`), then
`P = 2r+1` is accepted iff it passes the primality test and has at least
`digits` decimal digits, exactly as in the C acceptance condition. -/
def genSafePrime (digits : ℕ) : List ℕ → Option (ℕ × ℕ)
  | [] => none
  | s :: rest =>
    if primeTest (2 * leastPrimeAbove s + 1) &&
        decide (digits ≤ numDigits (2 * leastPrimeAbove s + 1)) then
      some (2 * leastPrimeAbove s + 1, leastPrimeAbove s)
    else genSafePrime digits rest

/-! ### Helper lemmas about `powLoop` and `power` -/

theorem powLoop_exp_zero (m : ℤ) (fuel : ℕ) (res b : ℤ) : powLoop m fuel res b 0 = res := by
  cases fuel <;> simp [powLoop]

theorem powLoop_eq (m : ℤ) (hm : 0 < m) :
    ∀ fuel e res b, 1 ≤ e → e ≤ fuel → 0 ≤ res → 0 ≤ b →
      powLoop m fuel res b e = (res * b ^ e) % m := by
  intro fuel
  induction fuel with
  | zero => intro e res b he hle _ _; omega
  | succ fuel ih =>
    intro e res b he hle hres hb
    have hne : ¬ e = 0 := by omega
    rw [powLoop, if_neg hne]
    have hb2 : (0 : ℤ) ≤ b * b := mul_nonneg hb hb
    have hbmod : ((b * b).tmod m) = (b * b) % m := Int.tmod_eq_emod hb2 hm.le
    have hrb : ((res * b).tmod m) = (res * b) % m :=
      Int.tmod_eq_emod (mul_nonneg hres hb) hm.le
    rcases Nat.lt_or_ge e 2 with h2 | h2
    · have he1 : e = 1 := by omega
      subst he1
      rw [if_pos (by norm_num)]
      have h10 : (1 : ℕ) / 2 = 0 := by norm_num
      rw [h10, powLoop_exp_zero, hrb, pow_one]
    · have hdiv1 : 1 ≤ e / 2 := by omega
      have hdivle : e / 2 ≤ fuel := by omega
      have hbb : (b * b) % m ≡ b * b [ZMOD m] := Int.emod_emod_of_dvd _ dvd_rfl
      have hbmod_nonneg : (0 : ℤ) ≤ (b * b).tmod m := by
        rw [hbmod]; exact Int.emod_nonneg _ (by omega)
      rcases Nat.mod_two_eq_zero_or_one e with hpar | hpar
      · rw [if_neg (by omega)]
        rw [ih (e / 2) res ((b * b).tmod m) hdiv1 hdivle hres hbmod_nonneg, hbmod]
        have hcong : res * ((b * b) % m) ^ (e / 2) ≡ res * (b * b) ^ (e / 2) [ZMOD m] :=
          Int.ModEq.mul Int.ModEq.rfl (Int.ModEq.pow _ hbb)
        have hval : res * (b * b) ^ (e / 2) = res * b ^ e := by
          have h2e : 2 * (e / 2) = e := by omega
          rw [← pow_two, ← pow_mul, h2e]
        rw [← hval]
        exact hcong
      · rw [if_pos hpar]
        have hrb_nonneg : (0 : ℤ) ≤ (res * b).tmod m := by
          rw [hrb]; exact Int.emod_nonneg _ (by omega)
        rw [ih (e / 2) ((res * b).tmod m) ((b * b).tmod m) hdiv1 hdivle hrb_nonneg hbmod_nonneg,
          hbmod, hrb]
        have hcong : (res * b) % m * ((b * b) % m) ^ (e / 2) ≡
            res * b * ((b * b) ^ (e / 2)) [ZMOD m] :=
          Int.ModEq.mul (Int.emod_emod_of_dvd _ dvd_rfl) (Int.ModEq.pow _ hbb)
        have hval : res * b * ((b * b) ^ (e / 2)) = res * b ^ e := by
          have h2e : 2 * (e / 2) + 1 = e := by omega
          rw [← pow_two, ← pow_mul, mul_assoc, ← pow_succ', h2e]
        rw [← hval]
        exact hcong

theorem powLoop_mod_one :
    ∀ fuel e res b, 1 ≤ e → e ≤ fuel → powLoop 1 fuel res b e = 0 := by
  intro fuel
  induction fuel with
  | zero => intro e res b he hle; omega
  | succ fuel ih =>
    intro e res b he hle
    have hne : ¬ e = 0 := by omega
    rw [powLoop, if_neg hne]
    rcases Nat.lt_or_ge e 2 with h2 | h2
    · have he1 : e = 1 := by omega
      subst he1
      rw [if_pos (by norm_num)]
      have h10 : (1 : ℕ) / 2 = 0 := by norm_num
      rw [h10, powLoop_exp_zero, Int.tmod_one]
    · exact ih (e / 2) _ _ (by omega) (by omega)

theorem power_eq_pow_mod (base expo m : ℤ) (hbase : 0 ≤ base) (hm : 0 < m)
    (he : 1 ≤ expo) : power base expo m = base ^ expo.toNat % m := by
  unfold power
  have h1 : 1 ≤ expo.toNat := by omega
  rw [powLoop_eq m hm expo.toNat expo.toNat 1 (base.tmod m) h1 le_rfl (by norm_num)
    (by rw [Int.tmod_eq_emod hbase hm.le]; exact Int.emod_nonneg _ (by omega))]
  rw [Int.tmod_eq_emod hbase hm.le, one_mul]
  exact Int.ModEq.pow _ (Int.emod_emod_of_dvd _ dvd_rfl)

theorem power_exp_nonpos (base expo m : ℤ) (he : expo ≤ 0) : power base expo m = 1 := by
  unfold power
  have h0 : expo.toNat = 0 := by omega
  rw [h0, powLoop_exp_zero]

/-! ### Helper lemmas about `modInvLoop` -/

theorem modInvLoop_found (e t : ℕ) :
    ∀ k d (d0 : ℕ), modInvLoop e t d k = (d0 : ℤ) →
      d ≤ d0 ∧ d0 < d + k ∧ (e * d0) % t = 1 := by
  intro k
  induction k with
  | zero =>
    intro d d0 h
    have h' : (-1 : ℤ) = (d0 : ℤ) := h
    omega
  | succ k ih =>
    intro d d0 h
    rw [modInvLoop] at h
    by_cases hc : (e * d) % t = 1
    · rw [if_pos hc] at h
      have hd : d = d0 := by omega
      subst hd
      exact ⟨le_rfl, by omega, hc⟩
    · rw [if_neg hc] at h
      obtain ⟨h1, h2, h3⟩ := ih (d + 1) d0 h
      exact ⟨by omega, by omega, h3⟩

theorem modInvLoop_none_iff (e t : ℕ) :
    ∀ k d, modInvLoop e t d k = -1 ↔ ∀ c, d ≤ c → c < d + k → (e * c) % t ≠ 1 := by
  intro k
  induction k with
  | zero =>
    intro d
    constructor
    · intro _ c h1 h2; omega
    · intro _; rfl
  | succ k ih =>
    intro d
    rw [modInvLoop]
    by_cases hc : (e * d) % t = 1
    · rw [if_pos hc]
      constructor
      · intro h; omega
      · intro h
        exact absurd hc (h d le_rfl (by omega))
    · rw [if_neg hc]
      rw [ih (d + 1)]
      constructor
      · intro h c h1 h2
        rcases Nat.eq_or_lt_of_le h1 with heq | hlt
        · rw [← heq]; exact hc
        · exact h c hlt (by omega)
      · intro h c h1 h2
        exact h c (by omega) (by omega)

theorem modInvLoop_total (e t : ℕ) :
    ∀ k d, modInvLoop e t d k = -1 ∨ ∃ d0 : ℕ, modInvLoop e t d k = (d0 : ℤ) := by
  intro k
  induction k with
  | zero => intro d; left; rfl
  | succ k ih =>
    intro d
    rw [modInvLoop]
    by_cases hc : (e * d) % t = 1
    · rw [if_pos hc]; right; exact ⟨d, rfl⟩
    · rw [if_neg hc]; exact ih (d + 1)

theorem inverse_in_scan_range (e t : ℕ) (ht : 1 < t) (hg : Nat.gcd e t = 1)
    (he1 : e % t ≠ 1) : ∃ d0, 2 ≤ d0 ∧ d0 < t ∧ (e * d0) % t = 1 := by
  have hco : Nat.Coprime e t := hg
  obtain ⟨x, hx⟩ := Nat.exists_mul_emod_eq_one_of_coprime hco ht
  have hx' : e * (x % t) % t = 1 := by
    rw [Nat.mul_mod, Nat.mod_mod_of_dvd x dvd_rfl, ← Nat.mul_mod]
    exact hx
  refine ⟨x % t, ?_, Nat.mod_lt _ (by omega), hx'⟩
  by_contra hlt
  rcases (by omega : x % t = 0 ∨ x % t = 1) with h0 | h1
  · rw [h0, Nat.mul_zero, Nat.zero_mod] at hx'
    omega
  · rw [h1, Nat.mul_one] at hx'
    exact he1 hx'

theorem gcd_eq_one_of_mul_mod (e t c : ℕ) (h : (e * c) % t = 1) : Nat.gcd e t = 1 := by
  have hq := Nat.div_add_mod (e * c) t
  have hdvd1 : Nat.gcd e t ∣ e * c := Dvd.dvd.mul_right (Nat.gcd_dvd_left e t) c
  have hdvd2 : Nat.gcd e t ∣ t * (e * c / t) := Dvd.dvd.mul_right (Nat.gcd_dvd_right e t) _
  have hone : e * c - t * (e * c / t) = 1 := by omega
  have : Nat.gcd e t ∣ 1 := hone ▸ Nat.dvd_sub' hdvd1 hdvd2
  exact Nat.dvd_one.mp this

theorem no_inverse_of_mod_one (e t c : ℕ) (he : e % t = 1) (hc2 : 2 ≤ c)
    (hct : c < t) : (e * c) % t ≠ 1 := by
  rw [Nat.mul_mod, he, one_mul, Nat.mod_mod_of_dvd c dvd_rfl, Nat.mod_eq_of_lt hct]
  omega

/-! ### Claim theorems: C9, C8, C2, C7 -/

/-- C9, counterexample to the claim as stated: `gcd(1, 5) = 1`, yet
`modInverse 1 5` returns the failure value `-1` (the scan starts at `d = 2`
and the unique inverse of `1` is `1`), so it is not the case that a valid
inverse is returned whenever `gcd(e, modulus) = 1`. -/
theorem modInverse_claim_cex : Nat.gcd 1 5 = 1 ∧ modInverse 1 5 = -1 := by decide

/-- C9 (amended): for every `e ≥ 0` and every modulus `> 1`, whenever
`modInverse` returns a value `d ≠ -1` it satisfies `0 < d < modulus` and
`(e*d) mod modulus = 1`; and it returns the failure value `-1` exactly when
`gcd(e, modulus) ≠ 1` or `e ≡ 1 (mod modulus)` (in the latter case the
inverse exists but equals 1, below the scan's starting point 2). -/
theorem modInverse_contract (e t : ℕ) (ht : 1 < t) :
    (modInverse e t = -1 ↔ (Nat.gcd e t ≠ 1 ∨ e % t = 1)) ∧
    (∀ d : ℕ, modInverse e t = (d : ℤ) → 0 < d ∧ d < t ∧ (e * d) % t = 1) := by
  constructor
  · rw [modInverse, modInvLoop_none_iff]
    constructor
    · intro h
      by_contra hcon
      push_neg at hcon
      obtain ⟨hg, he1⟩ := hcon
      obtain ⟨d0, hd2, hdt, hmod⟩ := inverse_in_scan_range e t ht hg he1
      exact h d0 hd2 (by omega) hmod
    · intro h c h2 hlt
      rcases h with hg | he1
      · intro hmod; exact hg (gcd_eq_one_of_mul_mod e t c hmod)
      · exact no_inverse_of_mod_one e t c he1 h2 (by omega)
  · intro d hd
    obtain ⟨h1, h2, h3⟩ := modInvLoop_found e t (t - 2) 2 d hd
    exact ⟨by omega, by omega, h3⟩

/-- Witness for C9 at `e = 3`, `modulus = 8` (where `modInverse 3 8 = 3`). -/
theorem modInverse_contract_witness :
    (1 : ℕ) < 8 ∧
    ((modInverse 3 8 = -1 ↔ (Nat.gcd 3 8 ≠ 1 ∨ 3 % 8 = 1)) ∧
     (∀ d : ℕ, modInverse 3 8 = (d : ℤ) → 0 < d ∧ d < 8 ∧ (3 * d) % 8 = 1)) :=
  ⟨by decide, modInverse_contract 3 8 (by decide)⟩

/-- C8, counterexample to the claim as stated: at `base = 0`, `expo = 0`,
`modulus = 1` the loop body never runs and `power` returns the accumulator
`1`, not `1 mod 1 = 0`; so neither `power(b,0,m) = 1 mod m` for every `m`
nor `power(b,e,1) = 0` for every `e` holds. -/
theorem power_claim_cex : power 0 0 1 = 1 ∧ power 0 0 1 ≠ (1 : ℤ) % 1 := by decide

/-- C8 (amended): `power(b, 0, m)` returns `1` for every base and every
modulus `m ≥ 1` (which equals `1 mod m` whenever `m > 1`), and
`power(b, e, 1)` returns `0` for every base and every exponent `e ≥ 1`. -/
theorem power_edge_cases (b m e : ℤ) (hm : 1 ≤ m) (he : 1 ≤ e) :
    power b 0 m = 1 ∧ (1 < m → power b 0 m = 1 % m) ∧ power b e 1 = 0 := by
  refine ⟨power_exp_nonpos b 0 m le_rfl, ?_, ?_⟩
  · intro hm1
    rw [power_exp_nonpos b 0 m le_rfl, Int.emod_eq_of_lt (by norm_num) hm1]
  · unfold power
    exact powLoop_mod_one e.toNat e.toNat 1 (b.tmod 1) (by omega) le_rfl

/-- Witness for C8 at `b = 5`, `m = 3`, `e = 2`. -/
theorem power_edge_cases_witness :
    (1 : ℤ) ≤ 3 ∧ (1 : ℤ) ≤ 2 ∧
    (power 5 0 3 = 1 ∧ ((1 : ℤ) < 3 → power 5 0 3 = 1 % 3) ∧ power 5 2 1 = 0) :=
  ⟨by decide, by decide, power_edge_cases 5 3 2 (by decide) (by decide)⟩

/-- C2 (confirmed): for every prime `P`, generator `alpha` and private
exponents `XA`, `XB`, the two independently derived shared secrets agree:
`(alpha^XB mod P)^XA mod P = (alpha^XA mod P)^XB mod P`.  (The modular
exponentiations are the four `mpz_powm` calls of both DH drivers.) -/
theorem dh_shared_secret (P alpha XA XB : ℕ) (hP : Nat.Prime P) :
    powm (powm alpha XB P) XA P = powm (powm alpha XA P) XB P := by
  unfold powm
  rw [← Nat.pow_mod, ← Nat.pow_mod, ← pow_mul, ← pow_mul, mul_comm XB XA]

/-- Witness for C2 at the spec's concrete scenario `P = 23`, `alpha = 5`,
`XA = 6`, `XB = 15`. -/
theorem dh_shared_secret_witness :
    Nat.Prime 23 ∧ powm (powm 5 15 23) 6 23 = powm (powm 5 6 23) 15 23 :=
  ⟨by norm_num, dh_shared_secret 23 5 6 15 (by norm_num)⟩

/-- Bezout identity and gcd correctness of `gcdExtended`, for all
nonnegative inputs (the recursion keeps both arguments nonnegative). -/
theorem gcdExtended_spec (a : ℕ) : ∀ b : ℕ,
    (a : ℤ) * (gcdExtended a b).2.1 + (b : ℤ) * (gcdExtended a b).2.2 =
      ((gcdExtended a b).1 : ℤ) ∧
    (gcdExtended a b).1 = Nat.gcd a b := by
  induction a using Nat.strong_induction_on with
  | _ a ih =>
    intro b
    by_cases h : a = 0
    · subst h
      rw [gcdExtended]
      simp
    · rw [gcdExtended, dif_neg h]
      obtain ⟨ih1, ih2⟩ := ih (b % a) (Nat.mod_lt _ (Nat.pos_of_ne_zero h)) a
      constructor
      · have hmod : ((b % a : ℕ) : ℤ) =
            (b : ℤ) - (a : ℤ) * ((b / a : ℕ) : ℤ) := by
          have hdm := Nat.div_add_mod b a
          have hdm' : (a : ℤ) * ((b / a : ℕ) : ℤ) + ((b % a : ℕ) : ℤ) = (b : ℤ) := by
            exact_mod_cast hdm
          linarith
        linear_combination ih1 - (gcdExtended (b % a) a).2.1 * hmod
      · exact ih2.trans (Nat.gcd_rec a b).symm

/-- C7 (confirmed): for all `a, b > 0`, `gcdExtended(a, b)` returns `g` and
coefficients `x, y` with `a*x + b*y = g` and `g = gcd(a, b)`. -/
theorem gcdExtended_bezout (a b : ℕ) (ha : 0 < a) (hb : 0 < b) :
    (a : ℤ) * (gcdExtended a b).2.1 + (b : ℤ) * (gcdExtended a b).2.2 =
      ((gcdExtended a b).1 : ℤ) ∧
    (gcdExtended a b).1 = Nat.gcd a b := gcdExtended_spec a b

/-- Witness for C7 at `a = 4`, `b = 6`. -/
theorem gcdExtended_bezout_witness :
    (0 : ℕ) < 4 ∧ (0 : ℕ) < 6 ∧
    ((4 : ℤ) * (gcdExtended 4 6).2.1 + (6 : ℤ) * (gcdExtended 4 6).2.2 =
       ((gcdExtended 4 6).1 : ℤ) ∧
     (gcdExtended 4 6).1 = Nat.gcd 4 6) :=
  ⟨by decide, by decide, gcdExtended_bezout 4 6 (by decide) (by decide)⟩

/-! ### Claim theorems: C10, C3, C5 -/

theorem powLoopChk_eq (m : ℤ) (hm : 1 ≤ m) (hm2 : m ≤ 2 ^ 31 - 1) :
    ∀ fuel e res b, e ≤ fuel → 0 ≤ res → res < max m 2 → 0 ≤ b → b < m →
      powLoopChk m fuel res b e = some (powLoop m fuel res b e) := by
  intro fuel
  induction fuel with
  | zero => intro e res b _ _ _ _ _; rfl
  | succ fuel ih =>
    intro e res b hle hres0 hres1 hb0 hb1
    rw [powLoopChk, powLoop]
    by_cases he : e = 0
    · rw [if_pos he, if_pos he]
    · rw [if_neg he, if_neg he]
      have hmax : max m 2 ≤ 2 ^ 31 - 1 := by
        rcases max_cases m 2 with ⟨hq, _⟩ | ⟨hq, _⟩ <;> omega
      have hbb0 : (0 : ℤ) ≤ b * b := mul_nonneg hb0 hb0
      have hbb1 : b * b < 2 ^ 63 := by
        have h1 : b * b ≤ (2 ^ 31 - 2) * (2 ^ 31 - 2) :=
          mul_le_mul (by omega) (by omega) hb0 (by omega)
        norm_num at h1 ⊢
        omega
      have hrb0 : (0 : ℤ) ≤ res * b := mul_nonneg hres0 hb0
      have hrb1 : res * b < 2 ^ 63 := by
        have h1 : res * b ≤ (2 ^ 31 - 1) * (2 ^ 31 - 2) :=
          mul_le_mul (by omega) (by omega) hb0 (by omega)
        norm_num at h1 ⊢
        omega
      have hbbm0 : (0 : ℤ) ≤ (b * b).tmod m := by
        rw [Int.tmod_eq_emod hbb0 (by omega)]
        exact Int.emod_nonneg _ (by omega)
      have hbbm1 : (b * b).tmod m < max m 2 := by
        rw [Int.tmod_eq_emod hbb0 (by omega)]
        have := Int.emod_lt_of_pos (b * b) (show (0 : ℤ) < m by omega)
        have := le_max_left m 2
        omega
      have hbbm1' : (b * b).tmod m < m := by
        rw [Int.tmod_eq_emod hbb0 (by omega)]
        exact Int.emod_lt_of_pos _ (by omega)
      have hediv : e / 2 ≤ fuel := by omega
      by_cases hpar : e % 2 = 1
      · rw [if_pos hpar, if_pos ⟨by omega, hrb1, by omega, hbb1⟩, if_pos hpar]
        have hrbm0 : (0 : ℤ) ≤ (res * b).tmod m := by
          rw [Int.tmod_eq_emod hrb0 (by omega)]
          exact Int.emod_nonneg _ (by omega)
        have hrbm1 : (res * b).tmod m < max m 2 := by
          rw [Int.tmod_eq_emod hrb0 (by omega)]
          have := Int.emod_lt_of_pos (res * b) (show (0 : ℤ) < m by omega)
          have := le_max_left m 2
          omega
        exact ih (e / 2) _ _ hediv hrbm0 hrbm1 hbbm0 hbbm1'
      · rw [if_neg hpar, if_pos ⟨by omega, hbb1⟩, if_neg hpar]
        exact ih (e / 2) _ _ hediv hres0 hres1 hbbm0 hbbm1'

/-- C10 (confirmed): for `base ≥ 0`, `expo ≥ 1` and `1 ≤ m ≤ 2^31 - 1`,
the square-and-multiply loop of `power` never overflows a signed 64-bit
integer (the instrumented loop `powerChk`, which returns `none` whenever an
intermediate product `res * b` or `b * b` leaves `[-2^63, 2^63)`, agrees
with `power`), the final result lies in `[0, m)` so the narrowing return
to `int` is lossless, and the result is exactly `base ^ expo mod m`. -/
theorem power_no_overflow (base expo m : ℤ) (hb : 0 ≤ base) (he : 1 ≤ expo)
    (hm : 1 ≤ m) (hm2 : m ≤ 2 ^ 31 - 1) :
    powerChk base expo m = some (power base expo m) ∧
    0 ≤ power base expo m ∧ power base expo m < m ∧
    power base expo m = base ^ expo.toNat % m := by
  have heq := power_eq_pow_mod base expo m hb (by omega) he
  have hbm0 : (0 : ℤ) ≤ base.tmod m := by
    rw [Int.tmod_eq_emod hb (by omega)]
    exact Int.emod_nonneg _ (by omega)
  have hbm1 : base.tmod m < m := by
    rw [Int.tmod_eq_emod hb (by omega)]
    exact Int.emod_lt_of_pos _ (by omega)
  refine ⟨?_, ?_, ?_, heq⟩
  · unfold powerChk power
    exact powLoopChk_eq m hm hm2 expo.toNat expo.toNat 1 (base.tmod m) le_rfl
      (by norm_num) (by have := le_max_left m 2; omega) hbm0 hbm1
  · rw [heq]
    exact Int.emod_nonneg _ (by omega)
  · rw [heq]
    exact Int.emod_lt_of_pos _ (by omega)

/-- Witness for C10 at `base = 7`, `expo = 5`, `m = 13`. -/
theorem power_no_overflow_witness :
    (0 : ℤ) ≤ 7 ∧ (1 : ℤ) ≤ 5 ∧ (1 : ℤ) ≤ 13 ∧ (13 : ℤ) ≤ 2 ^ 31 - 1 ∧
    (powerChk 7 5 13 = some (power 7 5 13) ∧
     0 ≤ power 7 5 13 ∧ power 7 5 13 < 13 ∧
     power 7 5 13 = 7 ^ (5 : ℤ).toNat % 13) :=
  ⟨by decide, by decide, by decide, by decide,
   power_no_overflow 7 5 13 (by decide) (by decide) (by decide) (by decide)⟩

theorem findGenLoop_least (p : ℕ) (factors : List ℕ) :
    ∀ fuel start g, findGenLoop p factors start fuel = some g →
      start ≤ g ∧ is_generator g p factors = true ∧
      ∀ c, start ≤ c → c < g → is_generator c p factors = false := by
  intro fuel
  induction fuel with
  | zero => intro start g h; exact Option.noConfusion h
  | succ fuel ih =>
    intro start g h
    rw [findGenLoop] at h
    by_cases hc : is_generator start p factors = true
    · rw [if_pos hc] at h
      obtain rfl : start = g := Option.some.inj h
      exact ⟨le_rfl, hc, fun c h1 h2 => absurd h1 (by omega)⟩
    · rw [if_neg hc] at h
      obtain ⟨h1, h2, h3⟩ := ih (start + 1) g h
      refine ⟨by omega, h2, ?_⟩
      intro c hc1 hc2
      rcases Nat.eq_or_lt_of_le hc1 with heq | hlt
      · rw [← heq]
        simpa using hc
      · exact h3 c (by omega) hc2

/-- C3 (confirmed): whenever the linear generator-search loop (started at
`startCandidate ≥ 2` over a prime `p`, with the distinct prime factors of
`p-1` from `factor_distinct`) returns a value `g`, then `g ≥ start`, `g`
satisfies the primitive-root criterion `g^((p-1)/q) mod p ≠ 1` for every
listed factor `q`, and no candidate in `[start, g)` satisfies it. -/
theorem findGenerator_least (p start fuel g : ℕ) (hp : Nat.Prime p) (hs : 2 ≤ start)
    (h : findGenLoop p (factor_distinct (p - 1)) start fuel = some g) :
    start ≤ g ∧ is_generator g p (factor_distinct (p - 1)) = true ∧
    ∀ c, start ≤ c → c < g → is_generator c p (factor_distinct (p - 1)) = false :=
  findGenLoop_least p (factor_distinct (p - 1)) fuel start g h

/-- Witness for C3 at `p = 23`, `start = 2` (the search finds `g = 5`, the
smallest primitive root of 23, matching the spec's concrete scenario). -/
theorem findGenerator_least_witness :
    Nat.Prime 23 ∧ 2 ≤ 2 ∧
    findGenLoop 23 (factor_distinct (23 - 1)) 2 10 = some 5 ∧
    (2 ≤ 5 ∧ is_generator 5 23 (factor_distinct (23 - 1)) = true ∧
     ∀ c, 2 ≤ c → c < 5 → is_generator c 23 (factor_distinct (23 - 1)) = false) :=
  ⟨by norm_num, by decide, by decide,
   findGenerator_least 23 2 10 5 (by norm_num) (by decide) (by decide)⟩

/-- C5 (confirmed): for the safe prime `P = 23` with `r = 11`,
`factor_distinct(22) = [2, 11]`, and for every start candidate from 2 to 22
the safe-prime-test search returns exactly the same result as the generic
search over the factors of `P - 1` (and it does return a value). -/
theorem strategy_equiv (start : ℕ) (h1 : 2 ≤ start) (h2 : start ≤ 22) :
    factor_distinct 22 = [2, 11] ∧
    findGenSafeLoop 23 11 start 30 = findGenLoop 23 (factor_distinct 22) start 30 ∧
    (findGenSafeLoop 23 11 start 30).isSome = true := by
  interval_cases start <;> exact ⟨by decide, by decide, by decide⟩

/-- Witness for C5 at `start = 2`. -/
theorem strategy_equiv_witness :
    2 ≤ 2 ∧ 2 ≤ 22 ∧
    (factor_distinct 22 = [2, 11] ∧
     findGenSafeLoop 23 11 2 30 = findGenLoop 23 (factor_distinct 22) 2 30 ∧
     (findGenSafeLoop 23 11 2 30).isSome = true) :=
  ⟨by decide, by decide, strategy_equiv 2 (by decide) (by decide)⟩

/-! ### Claim theorem: C4 -/

theorem primeTest_iff (n : ℕ) : primeTest n = true ↔ Nat.Prime n := by
  unfold primeTest
  rw [Bool.and_eq_true, List.all_eq_true]
  simp only [List.mem_range, decide_eq_true_eq]
  rw [Nat.prime_def_lt']
  constructor
  · rintro ⟨h2, hall⟩
    refine ⟨h2, fun m hm2 hmn => ?_⟩
    have hdvd := hall (m - 2) (by omega)
    rwa [show m - 2 + 2 = m by omega] at hdvd
  · rintro ⟨h2, hall⟩
    exact ⟨h2, fun i hi => hall (i + 2) (by omega) (by omega)⟩

theorem leastPrimeAbove_gt_and_prime (x : ℕ) :
    x < leastPrimeAbove x ∧ Nat.Prime (leastPrimeAbove x) := by
  unfold leastPrimeAbove
  have hex : ∃ p, Nat.Prime p ∧ x < p ∧ p < 2 * x + 4 := by
    rcases Nat.eq_zero_or_pos x with rfl | hx
    · exact ⟨2, by norm_num, by norm_num, by norm_num⟩
    · obtain ⟨p, hp, hlt1, hle2⟩ := Nat.exists_prime_lt_and_le_two_mul x (by omega)
      exact ⟨p, hp, hlt1, by omega⟩
  obtain ⟨p0, hp0, hx0, hlt0⟩ := hex
  have hmem : p0 ∈ (List.range (2 * x + 4)).filter
      (fun p => decide (x < p) && primeTest p) := by
    rw [List.mem_filter]
    refine ⟨List.mem_range.mpr hlt0, ?_⟩
    rw [Bool.and_eq_true, decide_eq_true_eq]
    exact ⟨hx0, (primeTest_iff p0).mpr hp0⟩
  cases hcase : (List.range (2 * x + 4)).filter
      (fun p => decide (x < p) && primeTest p) with
  | nil => rw [hcase] at hmem; exact absurd hmem (List.not_mem_nil _)
  | cons q tail =>
    have hqmem : q ∈ (List.range (2 * x + 4)).filter
        (fun p => decide (x < p) && primeTest p) := by
      rw [hcase]; exact List.mem_cons_self q tail
    rw [List.mem_filter, Bool.and_eq_true, decide_eq_true_eq] at hqmem
    exact ⟨hqmem.2.1, (primeTest_iff q).mp hqmem.2.2⟩

/-- C4 (confirmed): whatever the `minDecimalDigits` parameter and whatever
values the random sampler produces, whenever `gen_safe_prime` returns a
pair `(P, r)` it satisfies: `P` has at least `minDecimalDigits` decimal
digits, `P` passes the (idealised) primality test, `r` passes the same
test (it is produced by `mpz_nextprime`), and `P = 2*r + 1`. -/
theorem gen_safe_prime_post (digits : ℕ) :
    ∀ samples P r, genSafePrime digits samples = some (P, r) →
      P = 2 * r + 1 ∧ Nat.Prime P ∧ Nat.Prime r ∧ digits ≤ numDigits P := by
  intro samples
  induction samples with
  | nil => intro P r h; exact Option.noConfusion h
  | cons s rest ih =>
    intro P r h
    rw [genSafePrime] at h
    by_cases hc : (primeTest (2 * leastPrimeAbove s + 1) &&
        decide (digits ≤ numDigits (2 * leastPrimeAbove s + 1))) = true
    · rw [if_pos hc] at h
      obtain ⟨hP, hr⟩ := Prod.mk.inj (Option.some.inj h)
      rw [Bool.and_eq_true, decide_eq_true_eq] at hc
      subst hP
      subst hr
      exact ⟨rfl, (primeTest_iff _).mp hc.1,
        (leastPrimeAbove_gt_and_prime s).2, hc.2⟩
    · rw [if_neg hc] at h
      exact ih P r h

/-- Witness for C4: with `minDecimalDigits = 1` and the single sample `0`,
`gen_safe_prime` returns `(5, 2)`. -/
theorem gen_safe_prime_post_witness :
    genSafePrime 1 [0] = some (5, 2) ∧
    ((5 : ℕ) = 2 * 2 + 1 ∧ Nat.Prime 5 ∧ Nat.Prime 2 ∧ 1 ≤ numDigits 5) :=
  ⟨by decide, gen_safe_prime_post 1 [0] 5 2 (by decide)⟩

/-! ### Helper lemmas about `stripFactor` for C6 -/

theorem stripFactor_mul_pow (p : ℕ) :
    ∀ fuel n, ∃ k, stripFactor p n fuel * p ^ k = n := by
  intro fuel
  induction fuel with
  | zero => intro n; exact ⟨0, by simp [stripFactor]⟩
  | succ fuel ih =>
    intro n
    rw [stripFactor]
    by_cases h : p ∣ n
    · rw [if_pos h]
      obtain ⟨k, hk⟩ := ih (n / p)
      refine ⟨k + 1, ?_⟩
      rw [pow_succ, ← mul_assoc, hk, Nat.div_mul_cancel h]
    · rw [if_neg h]
      exact ⟨0, by simp⟩

theorem stripFactor_dvd (p fuel n : ℕ) : stripFactor p n fuel ∣ n := by
  obtain ⟨k, hk⟩ := stripFactor_mul_pow p fuel n
  exact ⟨p ^ k, hk.symm⟩

theorem stripFactor_pos (p fuel n : ℕ) (hn : 0 < n) : 0 < stripFactor p n fuel := by
  obtain ⟨k, hk⟩ := stripFactor_mul_pow p fuel n
  by_contra h
  have : stripFactor p n fuel = 0 := by omega
  rw [this, zero_mul] at hk
  omega

theorem stripFactor_not_dvd (p : ℕ) (hp : 2 ≤ p) :
    ∀ fuel n, 0 < n → n ≤ fuel → ¬ p ∣ stripFactor p n fuel := by
  intro fuel
  induction fuel with
  | zero => intro n hn hle; omega
  | succ fuel ih =>
    intro n hn hle
    rw [stripFactor]
    by_cases h : p ∣ n
    · rw [if_pos h]
      have hnp : 0 < n / p := Nat.div_pos (Nat.le_of_dvd hn h) (by omega)
      have hlt : n / p < n := Nat.div_lt_self hn (by omega)
      exact ih (n / p) hnp (by omega)
    · rw [if_neg h]
      exact h

theorem stripFactor_prime_dvd_iff (p q fuel n : ℕ) (hp : Nat.Prime p)
    (hq : Nat.Prime q) (hne : q ≠ p) :
    q ∣ stripFactor p n fuel ↔ q ∣ n := by
  obtain ⟨k, hk⟩ := stripFactor_mul_pow p fuel n
  constructor
  · intro h
    exact dvd_trans h (stripFactor_dvd p fuel n)
  · intro h
    rw [← hk] at h
    rcases (Nat.Prime.dvd_mul hq).mp h with h1 | h1
    · exact h1
    · exact absurd ((Nat.prime_dvd_prime_iff_eq hq hp).mp
        (Nat.Prime.dvd_of_dvd_pow hq h1)) hne


/-! ### Helper lemmas about `oddTrial` for C6 -/

theorem appendLeftover_append (L1 L2 : List ℕ) (m : ℕ) :
    appendLeftover (L1 ++ L2, m) = L1 ++ appendLeftover (L2, m) := by
  by_cases h : 1 < m <;> simp [appendLeftover, h]

theorem oddTrial_acc : ∀ fuel i n acc,
    oddTrial fuel i n acc = (acc ++ (oddTrial fuel i n []).1, (oddTrial fuel i n []).2) := by
  intro fuel
  induction fuel with
  | zero => intro i n acc; simp [oddTrial]
  | succ fuel ih =>
    intro i n acc
    rw [oddTrial]
    conv_rhs => rw [oddTrial]
    by_cases h1 : n ≤ 1
    · rw [if_pos h1, if_pos h1]; simp
    · rw [if_neg h1, if_neg h1]
      by_cases h2 : i ∣ n
      · rw [if_pos h2, if_pos h2]
        by_cases h3 : stripFactor i n n < i * i
        · rw [if_pos h3, if_pos h3]; simp
        · rw [if_neg h3, if_neg h3]
          rw [ih (i + 2) (stripFactor i n n) (acc ++ [i]),
            ih (i + 2) (stripFactor i n n) ([] ++ [i])]
          simp
      · rw [if_neg h2, if_neg h2]
        by_cases h3 : n < i * i
        · rw [if_pos h3, if_pos h3]; simp
        · rw [if_neg h3, if_neg h3]
          rw [ih (i + 2) n acc]

theorem prime_of_no_small_factor (n i : ℕ) (h1 : 1 < n) (hsmall : n < i * i)
    (hlarge : ∀ q, Nat.Prime q → q ∣ n → i ≤ q) : Nat.Prime n := by
  by_contra hnp
  have hmf := Nat.minFac_prime (show n ≠ 1 by omega)
  have hsq := Nat.minFac_sq_le_self (show 0 < n by omega) hnp
  have hi := hlarge n.minFac hmf (Nat.minFac_dvd n)
  have hmul : i * i ≤ n.minFac * n.minFac := Nat.mul_le_mul hi hi
  rw [pow_two] at hsq
  linarith

theorem prime_of_dvd_min (i n : ℕ) (hi : 2 ≤ i) (hdvd : i ∣ n)
    (hlarge : ∀ q, Nat.Prime q → q ∣ n → i ≤ q) : Nat.Prime i := by
  have hmf := Nat.minFac_prime (show i ≠ 1 by omega)
  have h1 : i.minFac ∣ n := dvd_trans (Nat.minFac_dvd i) hdvd
  have h2 := hlarge i.minFac hmf h1
  have h3 : i.minFac ≤ i := Nat.minFac_le (by omega)
  rw [Nat.prime_def_minFac]
  exact ⟨hi, by omega⟩

theorem trial_stop_spec (i n : ℕ) (hn : 0 < n) (hsmall : n < i * i)
    (hlarge : ∀ q, Nat.Prime q → q ∣ n → i ≤ q) :
    (∀ q ∈ appendLeftover ([], n), Nat.Prime q ∧ q ∣ n) ∧
    List.Pairwise (· < ·) (appendLeftover ([], n)) ∧
    (∀ q, Nat.Prime q → q ∣ n → q ∈ appendLeftover ([], n)) := by
  by_cases h1 : 1 < n
  · have hnp := prime_of_no_small_factor n i h1 hsmall hlarge
    have hres : appendLeftover (([] : List ℕ), n) = [n] := by simp [appendLeftover, h1]
    rw [hres]
    refine ⟨?_, ?_, ?_⟩
    · intro q hq
      rw [List.mem_singleton] at hq
      subst hq
      exact ⟨hnp, dvd_rfl⟩
    · exact List.pairwise_singleton _ _
    · intro q hq hqd
      rcases Nat.Prime.eq_one_or_self_of_dvd hnp q hqd with h' | h'
      · exact absurd h' (Nat.Prime.ne_one hq)
      · rw [List.mem_singleton]; exact h'
  · have hn1 : n = 1 := by omega
    subst hn1
    have hres : appendLeftover (([] : List ℕ), 1) = [] := by simp [appendLeftover]
    rw [hres]
    refine ⟨?_, ?_, ?_⟩
    · intro q hq; exact absurd hq (List.not_mem_nil q)
    · exact List.Pairwise.nil
    · intro q hq hqd
      exact absurd (Nat.dvd_one.mp hqd) (Nat.Prime.ne_one hq)

theorem oddTrial_correct :
    ∀ fuel i n, 0 < n → i % 2 = 1 → 3 ≤ i →
      (∀ q, Nat.Prime q → q ∣ n → i ≤ q) →
      n < (i + 2 * fuel) * (i + 2 * fuel) →
      (∀ q ∈ appendLeftover (oddTrial fuel i n []), Nat.Prime q ∧ q ∣ n) ∧
      List.Pairwise (· < ·) (appendLeftover (oddTrial fuel i n [])) ∧
      (∀ q, Nat.Prime q → q ∣ n → q ∈ appendLeftover (oddTrial fuel i n [])) := by
  intro fuel
  induction fuel with
  | zero =>
    intro i n hn hodd hi3 hlarge hbound
    have h0 : oddTrial 0 i n [] = (([] : List ℕ), n) := rfl
    rw [h0]
    have hbound' : n < i * i := by
      have h2 : i + 2 * 0 = i := by omega
      rw [h2] at hbound
      exact hbound
    exact trial_stop_spec i n hn hbound' hlarge
  | succ fuel ih =>
    intro i n hn hodd hi3 hlarge hbound
    rw [oddTrial]
    by_cases h1 : n ≤ 1
    · rw [if_pos h1]
      exact trial_stop_spec i n hn (by nlinarith) hlarge
    · rw [if_neg h1]
      have h2n : ¬ 2 ∣ n := by
        intro hdvd
        have := hlarge 2 Nat.prime_two hdvd
        omega
      by_cases h2 : i ∣ n
      · rw [if_pos h2]
        have hip : Nat.Prime i := prime_of_dvd_min i n (by omega) h2 hlarge
        have hstrip_ndvd : ¬ i ∣ stripFactor i n n :=
          stripFactor_not_dvd i (by omega) n n hn le_rfl
        have hstrip_dvd : stripFactor i n n ∣ n := stripFactor_dvd i n n
        have hstrip_pos : 0 < stripFactor i n n := stripFactor_pos i n n hn
        have hlarge' : ∀ q, Nat.Prime q → q ∣ stripFactor i n n → i + 2 ≤ q := by
          intro q hq hqd
          have hqn : q ∣ n := dvd_trans hqd hstrip_dvd
          have hqi := hlarge q hq hqn
          have hqne : q ≠ i := fun h => hstrip_ndvd (h ▸ hqd)
          have hqne1 : q ≠ i + 1 := by
            intro h
            have h2q : 2 ∣ q := by omega
            rcases Nat.Prime.eq_one_or_self_of_dvd hq 2 h2q with h' | h' <;> omega
          omega
        have hdvd_iff : ∀ q, Nat.Prime q → (q ∣ n ↔ q = i ∨ q ∣ stripFactor i n n) := by
          intro q hq
          constructor
          · intro hqn
            by_cases hqe : q = i
            · exact Or.inl hqe
            · exact Or.inr ((stripFactor_prime_dvd_iff i q n n hip hq hqe).mpr hqn)
          · rintro (rfl | hqd)
            · exact h2
            · exact dvd_trans hqd hstrip_dvd
        by_cases h3 : stripFactor i n n < i * i
        · rw [if_pos h3]
          by_cases h4 : 1 < stripFactor i n n
          · have hsp : Nat.Prime (stripFactor i n n) :=
              prime_of_no_small_factor _ i h4 h3
                (fun q hq hqd => by have := hlarge' q hq hqd; omega)
            have hres : appendLeftover (([] : List ℕ) ++ [i], stripFactor i n n) =
                [i, stripFactor i n n] := by
              simp [appendLeftover, h4]
            rw [hres]
            have hilt : i < stripFactor i n n := by
              have := hlarge' _ hsp dvd_rfl
              omega
            refine ⟨?_, ?_, ?_⟩
            · intro q hq
              rcases List.mem_pair.mp hq with rfl | rfl
              · exact ⟨hip, h2⟩
              · exact ⟨hsp, hstrip_dvd⟩
            · rw [List.pairwise_cons]
              refine ⟨?_, List.pairwise_singleton _ _⟩
              intro q hq
              rw [List.mem_singleton] at hq
              subst hq
              exact hilt
            · intro q hq hqd
              rcases (hdvd_iff q hq).mp hqd with rfl | hqd'
              · exact List.mem_cons_self _ _
              · rcases Nat.Prime.eq_one_or_self_of_dvd hsp q hqd' with h' | h'
                · exact absurd h' (Nat.Prime.ne_one hq)
                · rw [h']
                  exact List.mem_cons_of_mem _ (List.mem_singleton.mpr rfl)
          · have hs1 : stripFactor i n n = 1 := by omega
            have hres : appendLeftover (([] : List ℕ) ++ [i], stripFactor i n n) = [i] := by
              simp [appendLeftover, hs1]
            rw [hres]
            refine ⟨?_, ?_, ?_⟩
            · intro q hq
              rw [List.mem_singleton] at hq
              subst hq
              exact ⟨hip, h2⟩
            · exact List.pairwise_singleton _ _
            · intro q hq hqd
              rcases (hdvd_iff q hq).mp hqd with rfl | hqd'
              · exact List.mem_singleton.mpr rfl
              · rw [hs1] at hqd'
                exact absurd (Nat.dvd_one.mp hqd') (Nat.Prime.ne_one hq)
        · rw [if_neg h3]
          rw [oddTrial_acc fuel (i + 2) (stripFactor i n n) ([] ++ [i])]
          rw [appendLeftover_append, Prod.mk.eta]
          have hbound' : stripFactor i n n <
              ((i + 2) + 2 * fuel) * ((i + 2) + 2 * fuel) := by
            have hle := Nat.le_of_dvd hn hstrip_dvd
            have heq : i + 2 * (fuel + 1) = (i + 2) + 2 * fuel := by omega
            rw [heq] at hbound
            omega
          obtain ⟨ha', hb', hc'⟩ := ih (i + 2) (stripFactor i n n) hstrip_pos
            (by omega) (by omega) hlarge' hbound'
          simp only [List.nil_append, List.singleton_append]
          refine ⟨?_, ?_, ?_⟩
          · intro q hq
            rcases List.mem_cons.mp hq with rfl | hq'
            · exact ⟨hip, h2⟩
            · obtain ⟨hqp, hqd⟩ := ha' q hq'
              exact ⟨hqp, dvd_trans hqd hstrip_dvd⟩
          · rw [List.pairwise_cons]
            refine ⟨?_, hb'⟩
            intro q hq
            obtain ⟨hqp, hqd⟩ := ha' q hq
            have := hlarge' q hqp hqd
            omega
          · intro q hq hqd
            rcases (hdvd_iff q hq).mp hqd with rfl | hqd'
            · exact List.mem_cons_self _ _
            · exact List.mem_cons_of_mem _ (hc' q hq hqd')
      · rw [if_neg h2]
        have hlarge2 : ∀ q, Nat.Prime q → q ∣ n → i + 2 ≤ q := by
          intro q hq hqd
          have hqi := hlarge q hq hqd
          have hqne : q ≠ i := fun h => h2 (h ▸ hqd)
          have hqne1 : q ≠ i + 1 := by
            intro h
            have h2q : 2 ∣ q := by omega
            rcases Nat.Prime.eq_one_or_self_of_dvd hq 2 h2q with h' | h' <;> omega
          omega
        by_cases h3 : n < i * i
        · rw [if_pos h3]
          exact trial_stop_spec i n hn h3 hlarge
        · rw [if_neg h3]
          have hbound' : n < ((i + 2) + 2 * fuel) * ((i + 2) + 2 * fuel) := by
            have heq : i + 2 * (fuel + 1) = (i + 2) + 2 * fuel := by omega
            rw [heq] at hbound
            exact hbound
          exact ih (i + 2) n hn (by omega) (by omega) hlarge2 hbound'

theorem factor_distinct_chars (n : ℕ) (hn : 1 < n) :
    (∀ q ∈ factor_distinct n, Nat.Prime q ∧ q ∣ n) ∧
    List.Pairwise (· < ·) (factor_distinct n) ∧
    (∀ q, Nat.Prime q → q ∣ n → q ∈ factor_distinct n) := by
  unfold factor_distinct
  by_cases h2 : 2 ∣ n
  · rw [if_pos h2]
    have hstrip_ndvd : ¬ 2 ∣ stripFactor 2 n n :=
      stripFactor_not_dvd 2 le_rfl n n (by omega) le_rfl
    have hstrip_dvd : stripFactor 2 n n ∣ n := stripFactor_dvd 2 n n
    have hstrip_pos : 0 < stripFactor 2 n n := stripFactor_pos 2 n n (by omega)
    have hlarge : ∀ q, Nat.Prime q → q ∣ stripFactor 2 n n → 3 ≤ q := by
      intro q hq hqd
      have h2le := hq.two_le
      have hne : q ≠ 2 := fun h => hstrip_ndvd (h ▸ hqd)
      omega
    have hdvd_iff : ∀ q, Nat.Prime q → (q ∣ n ↔ q = 2 ∨ q ∣ stripFactor 2 n n) := by
      intro q hq
      constructor
      · intro hqn
        by_cases hqe : q = 2
        · exact Or.inl hqe
        · exact Or.inr ((stripFactor_prime_dvd_iff 2 q n n Nat.prime_two hq hqe).mpr hqn)
      · rintro (rfl | hqd)
        · exact h2
        · exact dvd_trans hqd hstrip_dvd
    have hbound : stripFactor 2 n n < (3 + 2 * n) * (3 + 2 * n) := by
      have hle := Nat.le_of_dvd (by omega) hstrip_dvd
      nlinarith
    obtain ⟨ha', hb', hc'⟩ := oddTrial_correct n 3 (stripFactor 2 n n) hstrip_pos
      (by norm_num) le_rfl hlarge hbound
    rw [oddTrial_acc n 3 (stripFactor 2 n n) [2], appendLeftover_append, Prod.mk.eta]
    simp only [List.singleton_append]
    refine ⟨?_, ?_, ?_⟩
    · intro q hq
      rcases List.mem_cons.mp hq with rfl | hq'
      · exact ⟨Nat.prime_two, h2⟩
      · obtain ⟨hqp, hqd⟩ := ha' q hq'
        exact ⟨hqp, dvd_trans hqd hstrip_dvd⟩
    · rw [List.pairwise_cons]
      refine ⟨?_, hb'⟩
      intro q hq
      obtain ⟨hqp, hqd⟩ := ha' q hq
      have := hlarge q hqp hqd
      omega
    · intro q hq hqd
      rcases (hdvd_iff q hq).mp hqd with rfl | hqd'
      · exact List.mem_cons_self _ _
      · exact List.mem_cons_of_mem _ (hc' q hq hqd')
  · rw [if_neg h2]
    have hlarge : ∀ q, Nat.Prime q → q ∣ n → 3 ≤ q := by
      intro q hq hqd
      have h2le := hq.two_le
      have hne : q ≠ 2 := fun h => h2 (h ▸ hqd)
      omega
    have hbound : n < (3 + 2 * n) * (3 + 2 * n) := by nlinarith
    exact oddTrial_correct n 3 n (by omega) (by norm_num) le_rfl hlarge hbound

/-- C6 (confirmed): for every `n > 1`, `factor_distinct(n)` returns a
collection in which every factor is prime, the factors are pairwise
distinct, and the product of the factors, each raised to its true
multiplicity in `n`, equals the original `n`. -/
theorem factor_distinct_guarantee (n : ℕ) (hn : 1 < n) :
    (∀ q ∈ factor_distinct n, Nat.Prime q) ∧
    (factor_distinct n).Nodup ∧
    ∏ q ∈ (factor_distinct n).toFinset, q ^ n.factorization q = n := by
  obtain ⟨ha, hb, hc⟩ := factor_distinct_chars n hn
  refine ⟨fun q hq => (ha q hq).1, ?_, ?_⟩
  · exact hb.imp (fun {a b} h => Nat.ne_of_lt h)
  · have hset : (factor_distinct n).toFinset = n.primeFactors := by
      ext q
      simp only [List.mem_toFinset, Nat.mem_primeFactors]
      constructor
      · intro hq
        exact ⟨(ha q hq).1, (ha q hq).2, by omega⟩
      · rintro ⟨h1', h2', _⟩
        exact hc q h1' h2'
    rw [hset]
    exact (Nat.prod_factorization_eq_prod_primeFactors fun p k => p ^ k).symm.trans
      (Nat.factorization_prod_pow_eq_self (by omega))

/-- Witness for C6 at `n = 12` (where `factor_distinct 12 = [2, 3]`). -/
theorem factor_distinct_guarantee_witness :
    1 < 12 ∧
    ((∀ q ∈ factor_distinct 12, Nat.Prime q) ∧
     (factor_distinct 12).Nodup ∧
     ∏ q ∈ (factor_distinct 12).toFinset, q ^ (12 : ℕ).factorization q = 12) :=
  ⟨by decide, factor_distinct_guarantee 12 (by decide)⟩

/-! ### Claim theorem: C1 (RSA round trip) -/

theorem power_natCast (b e n : ℕ) (hn : 0 < n) (he : 1 ≤ e) :
    power (b : ℤ) (e : ℤ) (n : ℤ) = ((b ^ e % n : ℕ) : ℤ) := by
  rw [power_eq_pow_mod _ _ _ (Int.natCast_nonneg b) (by exact_mod_cast hn)
    (by exact_mod_cast he)]
  rw [Int.toNat_natCast]
  norm_cast

theorem zmod_pow_sub_one_mul_add_one (p : ℕ) (hp : Nat.Prime p) (a : ZMod p) (c : ℕ) :
    a ^ ((p - 1) * c + 1) = a := by
  haveI : Fact (Nat.Prime p) := ⟨hp⟩
  by_cases ha : a = 0
  · subst ha
    exact zero_pow (by omega)
  · rw [pow_succ, pow_mul, ZMod.pow_card_sub_one_eq_one ha, one_pow, one_mul]

theorem rsa_core (p q k m : ℕ) (hp : Nat.Prime p) (hq : Nat.Prime q) (hpq : p ≠ q)
    (hm : m < p * q) (hk1 : 1 ≤ k) (hdvd : ((p - 1) * (q - 1)) ∣ (k - 1)) :
    m ^ k % (p * q) = m := by
  have hcop : Nat.Coprime p q := (Nat.coprime_primes hp hq).mpr hpq
  have hmodp : m ^ k ≡ m [MOD p] := by
    obtain ⟨c, hc⟩ := dvd_trans (dvd_mul_right (p - 1) (q - 1)) hdvd
    have hk : k = (p - 1) * c + 1 := by rw [← hc]; omega
    have hz : ((m : ZMod p)) ^ k = (m : ZMod p) := by
      rw [hk]; exact zmod_pow_sub_one_mul_add_one p hp _ c
    rw [← ZMod.natCast_eq_natCast_iff]
    push_cast
    exact hz
  have hmodq : m ^ k ≡ m [MOD q] := by
    obtain ⟨c, hc⟩ := dvd_trans (dvd_mul_left (q - 1) (p - 1)) hdvd
    have hk : k = (q - 1) * c + 1 := by rw [← hc]; omega
    have hz : ((m : ZMod q)) ^ k = (m : ZMod q) := by
      rw [hk]; exact zmod_pow_sub_one_mul_add_one q hq _ c
    rw [← ZMod.natCast_eq_natCast_iff]
    push_cast
    exact hz
  have hmod : m ^ k ≡ m [MOD p * q] :=
    (Nat.modEq_and_modEq_iff_modEq_mul hcop).mp ⟨hmodp, hmodq⟩
  calc m ^ k % (p * q) = m % (p * q) := hmod
    _ = m := Nat.mod_eq_of_lt hm

/-- C1, counterexample to the claim as stated: `p = 3`, `q = 5`, `e = 1`
(coprime to the totient 8), `m = 2 < 15`.  `modInverse 1 8` returns `-1`
(the scan starts at 2, yet the inverse of 1 is 1), so decryption computes
`power(2, -1, 15) = 1 ≠ 2` and the round trip fails. -/
theorem rsa_claim_cex :
    Nat.Prime 3 ∧ Nat.Prime 5 ∧ (3 : ℕ) ≠ 5 ∧
    Nat.gcd 1 ((3 - 1) * (5 - 1)) = 1 ∧ (2 : ℕ) < 3 * 5 ∧
    power (power (2 : ℤ) (1 : ℤ) ((3 * 5 : ℕ) : ℤ)) (modInverse 1 ((3 - 1) * (5 - 1)))
      ((3 * 5 : ℕ) : ℤ) ≠ (2 : ℤ) := by
  refine ⟨by decide, by decide, by decide, by decide, by decide, by decide⟩

/-- C1 (amended): for all distinct primes `p`, `q`, `n = p*q`,
`totient = (p-1)(q-1)`, every `e` coprime to `totient` **whose residue mod
`totient` is not 1** (so that the brute-force `modInverse` scan starting at
2 actually finds the inverse), and every message `0 ≤ m < n`:
`power(power(m, e, n), modInverse(e, totient), n) = m`. -/
theorem rsa_round_trip (p q e m : ℕ) (hp : Nat.Prime p) (hq : Nat.Prime q)
    (hpq : p ≠ q) (he : Nat.gcd e ((p - 1) * (q - 1)) = 1)
    (he1 : e % ((p - 1) * (q - 1)) ≠ 1) (hm : m < p * q) :
    power (power (m : ℤ) (e : ℤ) ((p * q : ℕ) : ℤ))
      (modInverse e ((p - 1) * (q - 1))) ((p * q : ℕ) : ℤ) = (m : ℤ) := by
  have hp2 := hp.two_le
  have hq2 := hq.two_le
  have ht2 : 2 ≤ (p - 1) * (q - 1) := by
    have h3 : 3 ≤ p ∨ 3 ≤ q := by omega
    rcases h3 with h | h
    · have := Nat.mul_le_mul (show 2 ≤ p - 1 by omega) (show 1 ≤ q - 1 by omega)
      omega
    · have := Nat.mul_le_mul (show 1 ≤ p - 1 by omega) (show 2 ≤ q - 1 by omega)
      omega
  have hn4 : 4 ≤ p * q := by
    have := Nat.mul_le_mul hp2 hq2
    omega
  have he0 : 1 ≤ e := by
    by_contra h
    have he' : e = 0 := by omega
    rw [he', Nat.gcd_zero_left] at he
    omega
  obtain ⟨d0, hd2, hdt, hmod0⟩ := inverse_in_scan_range e ((p - 1) * (q - 1))
    (by omega) he he1
  have hne : modInverse e ((p - 1) * (q - 1)) ≠ -1 := by
    intro hcon
    rw [modInverse, modInvLoop_none_iff] at hcon
    exact hcon d0 hd2 (by omega) hmod0
  rcases modInvLoop_total e ((p - 1) * (q - 1)) ((p - 1) * (q - 1) - 2) 2 with
    hminv | ⟨dv, hdv⟩
  · exact absurd hminv hne
  · obtain ⟨hdv2, hdvt, hdvmod⟩ :=
      modInvLoop_found e ((p - 1) * (q - 1)) ((p - 1) * (q - 1) - 2) 2 dv hdv
    have hdv' : modInverse e ((p - 1) * (q - 1)) = (dv : ℤ) := hdv
    rw [power_natCast m e (p * q) (by omega) he0, hdv',
      power_natCast (m ^ e % (p * q)) dv (p * q) (by omega) (by omega)]
    norm_cast
    rw [← Nat.pow_mod, ← pow_mul]
    have hk1 : 1 ≤ e * dv := by
      have := Nat.mul_le_mul he0 (show 1 ≤ dv by omega)
      omega
    have hdvd : ((p - 1) * (q - 1)) ∣ (e * dv - 1) := by
      have heq := Nat.div_add_mod (e * dv) ((p - 1) * (q - 1))
      rw [hdvmod] at heq
      refine ⟨e * dv / ((p - 1) * (q - 1)), ?_⟩
      generalize hY : e * dv = Y at heq ⊢
      generalize hX : (p - 1) * (q - 1) * (Y / ((p - 1) * (q - 1))) = X at heq ⊢
      omega
    exact rsa_core p q (e * dv) m hp hq hpq hm hk1 hdvd

/-- Witness for C1 at `p = 3`, `q = 5`, `e = 3`, `m = 2` (here
`modInverse 3 8 = 3` and `2^3 = 8`, `8^3 mod 15 = 2`). -/
theorem rsa_round_trip_witness :
    Nat.Prime 3 ∧ Nat.Prime 5 ∧ (3 : ℕ) ≠ 5 ∧
    Nat.gcd 3 ((3 - 1) * (5 - 1)) = 1 ∧ 3 % ((3 - 1) * (5 - 1)) ≠ 1 ∧ (2 : ℕ) < 3 * 5 ∧
    power (power (2 : ℤ) (3 : ℤ) ((3 * 5 : ℕ) : ℤ))
      (modInverse 3 ((3 - 1) * (5 - 1))) ((3 * 5 : ℕ) : ℤ) = (2 : ℤ) :=
  ⟨by decide, by decide, by decide, by decide, by decide, by decide,
   rsa_round_trip 3 5 3 2 (by decide) (by decide) (by decide) (by decide)
     (by decide) (by decide)⟩
